import Mathlib

/-!
Verification of the media ingestion and analysis pipeline core of PitchSide
Pro (the `VideoAnalyst` component): ingestion strategy selection, the
inference retry executor, the asset readiness poller, the file-size
validation of `handleFileChange`, the JSON response extractor
`tryParseJSON`, and the orchestrator's terminal handling in `runAnalysis`.
All definitions are shallow embeddings of the TypeScript source; network
effects are modelled by passing the sequence of observed responses as an
explicit argument, and awaited delays are collected into a list.
-/

namespace Pitchside

/-- Size ceiling constant: mirrors `const MAX_FILE_SIZE_MB = 2000`. -/
def MAX_FILE_SIZE_MB : Nat := 2000

/-- The two ingestion strategies: inline base64 payload versus remote upload
through the File API followed by readiness polling. -/
inductive Strategy where
  | Inline
  | Remote
deriving DecidableEq

/-- Mirrors `const isLargeFile = file.size > 20 * 1024 * 1024` in
`runAnalysis`. -/
def isLargeFile (size : Nat) : Bool := size > 20 * 1024 * 1024

/-- The ingestion strategy chosen by `runAnalysis` from the selected file's
byte size: large files go through the remote upload path, all others are
inline-encoded. -/
def selectStrategy (size : Nat) : Strategy :=
  if isLargeFile size then Strategy.Remote else Strategy.Inline

/-- A content part of the inference request: either a reference to a
remotely uploaded file (`fileData`) or an embedded base64 payload
(`inlineData`). -/
inductive ContentPart where
  | fileData (mimeType : String) (fileUri : String)
  | inlineData (mimeType : String) (data : String)
deriving DecidableEq

/-- The content part built by `runAnalysis` for the inference request,
abstracted over the result of the upload (`fileUri`, remote branch) and of
the base64 encoding (`base64Data`, inline branch): the remote branch sets
`contentPart = \x7b fileData: ... \x7d`, the inline branch sets
`contentPart = \x7b inlineData: ... \x7d`. -/
def contentPartFor (size : Nat) (mimeType fileUri base64Data : String) : ContentPart :=
  if isLargeFile size then ContentPart.fileData mimeType fileUri
  else ContentPart.inlineData mimeType base64Data

/-- State of the file-selection handler that is relevant to size
validation: the admitted file (its byte size) and the size carried by a
"File too large" error, if one was raised. Rendering of the error message
text (`toFixed` formatting) is not modelled. -/
structure SelectState where
  file : Option Nat
  sizeError : Option Nat
deriving DecidableEq

/-- Model of `handleFileChange`: a file whose size exceeds
`MAX_FILE_SIZE_MB * 1024 * 1024` raises the size error and returns before
the file slot is updated; otherwise the file is admitted and any previous
error is cleared. -/
def handleFileChange (st : SelectState) (size : Nat) : SelectState :=
  if size > MAX_FILE_SIZE_MB * 1024 * 1024 then
    { st with sizeError := some size }
  else
    { file := some size, sizeError := none }

/-- The strategy a subsequent `runAnalysis` would select: `runAnalysis`
returns immediately when no file is admitted (`if (!file) return`), so
strategy selection runs only on an admitted file. -/
def strategyOfRun (st : SelectState) : Option Strategy :=
  st.file.map selectStrategy

/-- The idle state before any file has been selected. -/
def idleSelect : SelectState := { file := none, sizeError := none }

/-- Error thrown by a failed inference attempt, as inspected by the catch
block of the retry loop: optional HTTP status, optional error code,
optional message. -/
structure InferenceError where
  status : Option Nat
  code : Option Nat
  message : Option String
deriving DecidableEq

/-- Decides whether the pattern is a leading segment of the character
list. -/
def leadsWith : List Char → List Char → Bool
  | [], _ => true
  | _ :: _, [] => false
  | a :: as, b :: bs => a = b && leadsWith as bs

/-- Decides whether the pattern occurs contiguously anywhere inside the
character list: model of JavaScript `String.prototype.includes`. -/
def charsSub (pat : List Char) : List Char → Bool
  | [] => leadsWith pat []
  | c :: t => leadsWith pat (c :: t) || charsSub pat t

/-- Model of `err.message?.includes(pat)`: false when `message` is
absent. -/
def msgIncludes (e : InferenceError) (pat : String) : Bool :=
  match e.message with
  | none => false
  | some m => charsSub pat.data m.data

/-- The retryability test of the catch block: status or code 503 or 429, or
a message containing "overloaded" or "fetch". -/
def isRetryable (e : InferenceError) : Bool :=
  e.status == some 503 || e.code == some 503 ||
  e.status == some 429 || e.code == some 429 ||
  msgIncludes e "overloaded" || msgIncludes e "fetch"

/-- Outcome of one `ai.models.generateContent` call: success with the
response text (`response.text || ""`), or a thrown error. -/
inductive Outcome where
  | success (text : String)
  | failure (e : InferenceError)

/-- Result of the retry loop: the returned text or the re-raised error, the
backoff delays awaited (in milliseconds, in order), and the number of
attempts issued. -/
structure RetryResult where
  result : Except InferenceError String
  delays : List Nat
  attemptsUsed : Nat

/-- Mirrors `const MAX_RETRIES = 3`. -/
def MAX_RETRIES : Nat := 3

/-- One execution of the retry loop body and its continuation, with the
outcome of attempt `a` given by `outcomes a`. The fuel always equals
`MAX_RETRIES - a`, so the fuel-exhausted clause (the loop condition
`attempt < MAX_RETRIES` turning false with `success` still false) is
unreachable; it returns the initial `responseText = ""`. On a retryable
failure with attempts remaining, the loop increments `attempt`, awaits
`Math.pow(2, attempt) * 2000` milliseconds, and retries; otherwise the
error is re-raised. -/
def retryGo (outcomes : Nat → Outcome) : Nat → Nat → List Nat → RetryResult
  | 0, a, ds => ⟨Except.ok "", ds, a⟩
  | fuel + 1, a, ds =>
    match outcomes a with
    | Outcome.success t => ⟨Except.ok t, ds, a + 1⟩
    | Outcome.failure e =>
      if isRetryable e && decide (a < MAX_RETRIES - 1) then
        retryGo outcomes fuel (a + 1) (ds ++ [2 ^ (a + 1) * 2000])
      else
        ⟨Except.error e, ds, a + 1⟩

/-- The retry loop of `runAnalysis` (`while (attempt < MAX_RETRIES &&
!success)`), run from attempt 0 with no delays awaited yet. -/
def runRetry (outcomes : Nat → Outcome) : RetryResult :=
  retryGo outcomes MAX_RETRIES 0 []

/-- A status-check response observed by `getFileState`: an errored response
(non-success HTTP status) or a success carrying the reported `state`
field. -/
inductive StatusResponse where
  | errored
  | ok (state : String)

/-- Model of `getFileState`: a non-success response maps to `"UNKNOWN"`;
otherwise the reported state is returned. -/
def getFileState : StatusResponse → String
  | StatusResponse.errored => "UNKNOWN"
  | StatusResponse.ok s => s

/-- The readiness poll loop of `runAnalysis`: while the state equals
`"PROCESSING"`, sleep 2000 ms, fetch the next state (the result of the
`n`-th `getFileState` call is `states n`), and throw if it is `"FAILED"`;
after the loop, any state other than `"ACTIVE"` throws. The list collects
the sleep intervals awaited; `none` means the fuel ran out while the state
was still `"PROCESSING"` (the source loop would keep polling). -/
def awaitReadyGo (states : Nat → String) :
    Nat → List Nat → String → Option (Except String String × List Nat)
  | 0, ds, st =>
    if st = "PROCESSING" then none
    else if st = "ACTIVE" then some (Except.ok st, ds)
    else some (Except.error ("File state is " ++ st), ds)
  | fuel + 1, ds, st =>
    if st = "PROCESSING" then
      let s := states ds.length
      if s = "FAILED" then
        some (Except.error "Video processing failed on server.", ds ++ [2000])
      else
        awaitReadyGo states fuel (ds ++ [2000]) s
    else if st = "ACTIVE" then some (Except.ok st, ds)
    else some (Except.error ("File state is " ++ st), ds)

/-- The poll loop started from the initial `fileState = "PROCESSING"`. -/
def awaitReady (states : Nat → String) (fuel : Nat) :
    Option (Except String String × List Nat) :=
  awaitReadyGo states fuel [] "PROCESSING"

theorem retryGo_succ_success (outcomes : Nat → Outcome) (fuel a : Nat)
    (ds : List Nat) (t : String) (h : outcomes a = Outcome.success t) :
    retryGo outcomes (fuel + 1) a ds = ⟨Except.ok t, ds, a + 1⟩ := by
  simp only [retryGo, h]

theorem retryGo_succ_fail_retry (outcomes : Nat → Outcome) (fuel a : Nat)
    (ds : List Nat) (e : InferenceError) (h : outcomes a = Outcome.failure e)
    (hr : isRetryable e = true) (ha : a < MAX_RETRIES - 1) :
    retryGo outcomes (fuel + 1) a ds
      = retryGo outcomes fuel (a + 1) (ds ++ [2 ^ (a + 1) * 2000]) := by
  simp [retryGo, h, hr, ha]

theorem retryGo_succ_fail_stop (outcomes : Nat → Outcome) (fuel a : Nat)
    (ds : List Nat) (e : InferenceError) (h : outcomes a = Outcome.failure e)
    (hstop : (isRetryable e && decide (a < MAX_RETRIES - 1)) = false) :
    retryGo outcomes (fuel + 1) a ds = ⟨Except.error e, ds, a + 1⟩ := by
  simp only [retryGo, h, hstop, Bool.false_eq_true, if_false]

/-- C1: for every selected file whose byte size is strictly greater than 20
MiB and at most the 2000 MiB ceiling, `runAnalysis` chooses the Remote
strategy and builds a `fileData` content part; for every file of size at
most 20 MiB it chooses the Inline strategy and builds an `inlineData`
content part. -/
theorem c1_strategy_selection (n m : Nat) (mt u b : String)
    (h1 : 20 * 1024 * 1024 < n) (h2 : n ≤ MAX_FILE_SIZE_MB * 1024 * 1024)
    (h3 : m ≤ 20 * 1024 * 1024) :
    selectStrategy n = Strategy.Remote ∧
    contentPartFor n mt u b = ContentPart.fileData mt u ∧
    selectStrategy m = Strategy.Inline ∧
    contentPartFor m mt u b = ContentPart.inlineData mt b := by
  have hn : isLargeFile n = true := by
    simp only [isLargeFile, decide_eq_true_eq]
    omega
  have hm : isLargeFile m = false := by
    simp only [isLargeFile, decide_eq_false_iff_not]
    omega
  refine ⟨?_, ?_, ?_, ?_⟩ <;> simp [selectStrategy, contentPartFor, hn, hm]

theorem c1_strategy_selection_witness :
    selectStrategy (20 * 1024 * 1024 + 1) = Strategy.Remote ∧
    contentPartFor (20 * 1024 * 1024 + 1) "video/mp4" "u" "b"
      = ContentPart.fileData "video/mp4" "u" ∧
    selectStrategy (20 * 1024 * 1024) = Strategy.Inline ∧
    contentPartFor (20 * 1024 * 1024) "video/mp4" "u" "b"
      = ContentPart.inlineData "video/mp4" "b" :=
  c1_strategy_selection (20 * 1024 * 1024 + 1) (20 * 1024 * 1024)
    "video/mp4" "u" "b" (by norm_num) (by norm_num [MAX_FILE_SIZE_MB])
    (by norm_num)

/-- C2: if the attempt outcomes are failure with status 503, failure with
status 503, then success, the retry executor awaits exactly the two backoff
delays 4000 ms and 8000 ms and returns the third attempt's response
text, having issued 3 attempts. -/
theorem c2_retry_503_503_success (outcomes : Nat → Outcome)
    (e0 e1 : InferenceError) (t : String)
    (h0 : outcomes 0 = Outcome.failure e0)
    (h1 : outcomes 1 = Outcome.failure e1)
    (h2 : outcomes 2 = Outcome.success t)
    (hs0 : e0.status = some 503) (hs1 : e1.status = some 503) :
    runRetry outcomes = ⟨Except.ok t, [4000, 8000], 3⟩ := by
  have r0 : isRetryable e0 = true := by simp [isRetryable, hs0]
  have r1 : isRetryable e1 = true := by simp [isRetryable, hs1]
  show retryGo outcomes (2 + 1) 0 [] = _
  rw [retryGo_succ_fail_retry outcomes 2 0 [] e0 h0 r0 (by norm_num [MAX_RETRIES])]
  show retryGo outcomes (1 + 1) 1 _ = _
  rw [retryGo_succ_fail_retry outcomes 1 1 _ e1 h1 r1 (by norm_num [MAX_RETRIES])]
  show retryGo outcomes (0 + 1) 2 _ = _
  rw [retryGo_succ_success outcomes 0 2 _ t h2]
  norm_num

theorem c2_retry_503_503_success_witness :
    runRetry (fun n =>
      if n = 0 then Outcome.failure ⟨some 503, none, none⟩
      else if n = 1 then Outcome.failure ⟨some 503, none, some "overloaded"⟩
      else Outcome.success "final text")
      = ⟨Except.ok "final text", [4000, 8000], 3⟩ :=
  c2_retry_503_503_success _ ⟨some 503, none, none⟩
    ⟨some 503, none, some "overloaded"⟩ "final text" rfl rfl rfl rfl rfl

/-- C3: for every sequence of all-retryable inference failures of length at
least 3 (only the first three outcomes are ever consulted), the retry
executor stops after exactly 3 attempts, awaits exactly the two delays 4000
ms and 8000 ms, and re-raises the last encountered error (the terminal
exhaustion outcome). -/
theorem c3_retry_exhaustion (outcomes : Nat → Outcome)
    (e0 e1 e2 : InferenceError)
    (h0 : outcomes 0 = Outcome.failure e0)
    (h1 : outcomes 1 = Outcome.failure e1)
    (h2 : outcomes 2 = Outcome.failure e2)
    (r0 : isRetryable e0 = true) (r1 : isRetryable e1 = true)
    (r2 : isRetryable e2 = true) :
    runRetry outcomes = ⟨Except.error e2, [4000, 8000], 3⟩ := by
  show retryGo outcomes (2 + 1) 0 [] = _
  rw [retryGo_succ_fail_retry outcomes 2 0 [] e0 h0 r0 (by norm_num [MAX_RETRIES])]
  show retryGo outcomes (1 + 1) 1 _ = _
  rw [retryGo_succ_fail_retry outcomes 1 1 _ e1 h1 r1 (by norm_num [MAX_RETRIES])]
  show retryGo outcomes (0 + 1) 2 _ = _
  rw [retryGo_succ_fail_stop outcomes 0 2 _ e2 h2 (by simp [r2, MAX_RETRIES])]
  norm_num

theorem c3_retry_exhaustion_witness :
    runRetry (fun _ => Outcome.failure ⟨some 429, none, none⟩)
      = ⟨Except.error ⟨some 429, none, none⟩, [4000, 8000], 3⟩ :=
  c3_retry_exhaustion _ ⟨some 429, none, none⟩ ⟨some 429, none, none⟩
    ⟨some 429, none, none⟩ rfl rfl rfl (by decide) (by decide) (by decide)

/-- C4: a non-retryable first failure (status and code neither 429 nor 503,
message containing neither overload nor network indicator) is re-raised
immediately: zero delays awaited and exactly one attempt issued. -/
theorem c4_nonretryable_immediate (outcomes : Nat → Outcome)
    (e : InferenceError) (h : outcomes 0 = Outcome.failure e)
    (hr : isRetryable e = false) :
    runRetry outcomes = ⟨Except.error e, [], 1⟩ := by
  show retryGo outcomes (2 + 1) 0 [] = _
  rw [retryGo_succ_fail_stop outcomes 2 0 [] e h (by simp [hr])]

theorem c4_nonretryable_immediate_witness :
    runRetry (fun _ => Outcome.failure ⟨some 400, none, some "Bad Request"⟩)
      = ⟨Except.error ⟨some 400, none, some "Bad Request"⟩, [], 1⟩ :=
  c4_nonretryable_immediate _ ⟨some 400, none, some "Bad Request"⟩ rfl
    (by decide)

/-- C6: with the observed status sequence PROCESSING, PROCESSING, ACTIVE
(the initial state plus two fetches), the poll loop resolves with the
ACTIVE state after awaiting exactly two 2000 ms intervals; with the
sequence PROCESSING, FAILED it throws the server-processing error after
exactly one 2000 ms interval. -/
theorem c6_poller_scenarios :
    awaitReady (fun n => if n = 0 then "PROCESSING" else "ACTIVE") 10
      = some (Except.ok "ACTIVE", [2000, 2000]) ∧
    awaitReady (fun _ => "FAILED") 10
      = some (Except.error "Video processing failed on server.", [2000]) := by
  constructor <;> rfl

/-- Counterexample to C5: after a single errored status-check response
(mapped to `"UNKNOWN"` by `getFileState`) the poll loop does not continue
polling: although the very next fetch would report `"ACTIVE"`, the loop
exits (the while condition requires exactly `"PROCESSING"`) and the run
aborts with the error `File state is UNKNOWN` after one interval. -/
theorem c5_counterexample :
    awaitReady
      (fun n => getFileState
        (if n = 0 then StatusResponse.errored else StatusResponse.ok "ACTIVE"))
      10
      = some (Except.error "File state is UNKNOWN", [2000]) := by
  rfl

/-- C5 as amended: a malformed or errored status-check response maps the
state to `"UNKNOWN"`, but `"UNKNOWN"` is terminal for the loop: the poll
loop exits and the run aborts with `File state is UNKNOWN` after the one
interval that preceded the errored check, regardless of any further
states the server would have reported. -/
theorem c5_amended (states : Nat → String) (fuel : Nat)
    (h : states 0 = getFileState StatusResponse.errored) :
    awaitReady states (fuel + 1)
      = some (Except.error "File state is UNKNOWN", [2000]) := by
  have h' : states 0 = "UNKNOWN" := h
  show awaitReadyGo states (fuel + 1) [] "PROCESSING" = _
  rw [awaitReadyGo]
  simp only [if_pos rfl, List.length_nil, h', List.nil_append]
  norm_num
  cases fuel <;> rfl

theorem c5_amended_witness :
    awaitReady (fun _ => getFileState StatusResponse.errored) (9 + 1)
      = some (Except.error "File state is UNKNOWN", [2000]) :=
  c5_amended (fun _ => getFileState StatusResponse.errored) 9 rfl

/-- C7: a file strictly larger than the 2000 MiB ceiling is rejected by
`handleFileChange` with the size error before anything else happens: the
file slot is never updated, so a subsequent `runAnalysis` returns
immediately and strategy selection never runs (and no network call of the
pipeline is reachable, all of which sit behind the strategy branch). -/
theorem c7_oversize_rejected (size : Nat)
    (h : MAX_FILE_SIZE_MB * 1024 * 1024 < size) :
    (handleFileChange idleSelect size).sizeError = some size ∧
    (handleFileChange idleSelect size).file = none ∧
    strategyOfRun (handleFileChange idleSelect size) = none := by
  have hgt : size > MAX_FILE_SIZE_MB * 1024 * 1024 := h
  simp [handleFileChange, hgt, idleSelect, strategyOfRun]

theorem c7_oversize_rejected_witness :
    (handleFileChange idleSelect (2000 * 1024 * 1024 + 1)).sizeError
      = some (2000 * 1024 * 1024 + 1) ∧
    (handleFileChange idleSelect (2000 * 1024 * 1024 + 1)).file = none ∧
    strategyOfRun (handleFileChange idleSelect (2000 * 1024 * 1024 + 1))
      = none :=
  c7_oversize_rejected (2000 * 1024 * 1024 + 1)
    (by norm_num [MAX_FILE_SIZE_MB])

/-- JSON values as handled by the response extractor. Numbers are modelled
as integers (the schema's number fields are second counts); fractional and
exponent numerals, `\u` escapes and raw-control-character rejection of
`JSON.parse` are outside the model. Strings are character lists. -/
inductive JsonValue where
  | null
  | jbool (b : Bool)
  | jnum (n : Int)
  | jstr (s : List Char)
  | jarr (xs : List JsonValue)
  | jobj (fields : List (List Char × JsonValue))

/-- The whitespace class of the JSON grammar and of the regex `\s` (common
ASCII members). -/
def isWsChar (c : Char) : Bool :=
  c = ' ' || c = '\t' || c = '\n' || c = '\r' || c = '\x0b' || c = '\x0c'

/-- Decimal digit test. -/
def isDigitCh (c : Char) : Bool := '0' ≤ c && c ≤ '9'

/-- Numeric value of a decimal digit character. -/
def digitVal (c : Char) : Nat := c.toNat - 48

/-- The decimal digit character for a value below ten. -/
def digitChar (d : Nat) : Char := Char.ofNat (48 + d)

/-- Decimal digits of a natural number, most significant first. The fuel
argument (always at least the digit count) keeps the recursion
structural. -/
def natCharsFuel : Nat → Nat → List Char
  | 0, _ => []
  | fuel + 1, n =>
    if n < 10 then [digitChar n]
    else natCharsFuel fuel (n / 10) ++ [digitChar (n % 10)]

/-- Decimal representation of a natural number. -/
def natChars (n : Nat) : List Char := natCharsFuel (n + 1) n

/-- Decimal representation of an integer (minus sign for negatives). -/
def intChars : Int → List Char
  | Int.ofNat n => natChars n
  | Int.negSucc m => '-' :: natChars (m + 1)

/-- JSON string escaping of one character (quote, backslash and the common
control characters; other characters are emitted raw). -/
def escChar (c : Char) : List Char :=
  if c = '"' then ['\\', '"']
  else if c = '\\' then ['\\', '\\']
  else if c = '\n' then ['\\', 'n']
  else if c = '\t' then ['\\', 't']
  else if c = '\r' then ['\\', 'r']
  else [c]

/-- JSON string escaping of a character list. -/
def escString (s : List Char) : List Char :=
  s.foldr (fun c acc => escChar c ++ acc) []

/-- Unescaping of the character following a backslash in a JSON string. -/
def unescChar (c : Char) : Option Char :=
  if c = '"' then some '"'
  else if c = '\\' then some '\\'
  else if c = '/' then some '/'
  else if c = 'n' then some '\n'
  else if c = 't' then some '\t'
  else if c = 'r' then some '\r'
  else if c = 'b' then some '\x08'
  else if c = 'f' then some '\x0c'
  else none

/-- Parses the body of a JSON string up to and including the closing quote,
returning the unescaped contents and the remaining input. -/
def parseStringBody : List Char → Option (List Char × List Char)
  | [] => none
  | c :: r =>
    if c = '"' then some ([], r)
    else if c = '\\' then
      match r with
      | [] => none
      | e :: r2 =>
        match unescChar e with
        | none => none
        | some c2 => (parseStringBody r2).map (fun p => (c2 :: p.1, p.2))
    else (parseStringBody r).map (fun p => (c :: p.1, p.2))

/-- Folds further decimal digits into an accumulated value, returning the
value and the first non-digit remainder. -/
def parseDigitsAcc (acc : Nat) : List Char → Nat × List Char
  | [] => (acc, [])
  | c :: r => if isDigitCh c then parseDigitsAcc (acc * 10 + digitVal c) r else (acc, c :: r)

/-- Parses a nonempty run of decimal digits. -/
def parseNat : List Char → Option (Nat × List Char)
  | [] => none
  | c :: r => if isDigitCh c then some (parseDigitsAcc (digitVal c) r) else none

/-- Drops leading whitespace. -/
def skipWs (cs : List Char) : List Char := cs.dropWhile isWsChar

mutual

/-- Recursive-descent model of `JSON.parse` on one value: skips leading
whitespace, then dispatches on the first character. The fuel argument
bounds the recursion depth; `jsonParse` supplies enough fuel for any
input. -/
def parseValue : Nat → List Char → Option (JsonValue × List Char)
  | 0, _ => none
  | fuel + 1, cs =>
    match skipWs cs with
    | [] => none
    | c :: r =>
      if c = '\x7b' then
        match skipWs r with
        | [] => none
        | c2 :: r2 =>
          if c2 = '\x7d' then some (JsonValue.jobj [], r2)
          else (parseFields fuel (c2 :: r2)).map (fun p => (JsonValue.jobj p.1, p.2))
      else if c = '[' then
        match skipWs r with
        | [] => none
        | c2 :: r2 =>
          if c2 = ']' then some (JsonValue.jarr [], r2)
          else (parseItems fuel (c2 :: r2)).map (fun p => (JsonValue.jarr p.1, p.2))
      else if c = '"' then
        (parseStringBody r).map (fun p => (JsonValue.jstr p.1, p.2))
      else if c = 't' then
        if leadsWith ['r', 'u', 'e'] r then some (JsonValue.jbool true, r.drop 3)
        else none
      else if c = 'f' then
        if leadsWith ['a', 'l', 's', 'e'] r then some (JsonValue.jbool false, r.drop 4)
        else none
      else if c = 'n' then
        if leadsWith ['u', 'l', 'l'] r then some (JsonValue.null, r.drop 3)
        else none
      else if c = '-' then
        (parseNat r).map (fun p => (JsonValue.jnum (-(p.1 : Int)), p.2))
      else if isDigitCh c then
        (parseNat (c :: r)).map (fun p => (JsonValue.jnum (p.1 : Int), p.2))
      else none

/-- Parses the comma-separated items of a nonempty array, up to and
including the closing bracket. -/
def parseItems : Nat → List Char → Option (List JsonValue × List Char)
  | 0, _ => none
  | fuel + 1, cs =>
    match parseValue fuel cs with
    | none => none
    | some (v, r) =>
      match skipWs r with
      | [] => none
      | c :: r2 =>
        if c = ',' then
          match parseItems fuel r2 with
          | none => none
          | some (vs, r3) => some (v :: vs, r3)
        else if c = ']' then some ([v], r2)
        else none

/-- Parses the comma-separated fields of a nonempty object, up to and
including the closing brace. -/
def parseFields : Nat → List Char → Option (List (List Char × JsonValue) × List Char)
  | 0, _ => none
  | fuel + 1, cs =>
    match skipWs cs with
    | [] => none
    | c :: r =>
      if c = '"' then
        match parseStringBody r with
        | none => none
        | some (k, r2) =>
          match skipWs r2 with
          | [] => none
          | c2 :: r3 =>
            if c2 = ':' then
              match parseValue fuel r3 with
              | none => none
              | some (v, r4) =>
                match skipWs r4 with
                | [] => none
                | c3 :: r5 =>
                  if c3 = ',' then
                    match parseFields fuel r5 with
                    | none => none
                    | some (fs, r6) => some ((k, v) :: fs, r6)
                  else if c3 = '\x7d' then some ([(k, v)], r5)
                  else none
            else none
      else none

end

/-- Model of `JSON.parse`: one value spanning the whole input apart from
surrounding whitespace. The fuel `2 * length + 2` covers any nesting the
input can express (each two fuel steps consume at least one character). -/
def jsonParse (cs : List Char) : Option JsonValue :=
  match parseValue (2 * cs.length + 2) cs with
  | none => none
  | some (v, rest) => if rest.all isWsChar then some v else none

mutual

/-- Canonical serialization of a JSON value (no interior whitespace). -/
def serV : JsonValue → List Char
  | JsonValue.null => ['n', 'u', 'l', 'l']
  | JsonValue.jbool true => ['t', 'r', 'u', 'e']
  | JsonValue.jbool false => ['f', 'a', 'l', 's', 'e']
  | JsonValue.jnum k => intChars k
  | JsonValue.jstr s => '"' :: escString s ++ ['"']
  | JsonValue.jarr [] => ['[', ']']
  | JsonValue.jarr (x :: xs) => '[' :: serItems x xs ++ [']']
  | JsonValue.jobj [] => ['\x7b', '\x7d']
  | JsonValue.jobj (f :: fs) => '\x7b' :: serFields f fs ++ ['\x7d']
termination_by v => sizeOf v

/-- Serialization of a nonempty array item list, comma separated. -/
def serItems : JsonValue → List JsonValue → List Char
  | x, [] => serV x
  | x, y :: ys => serV x ++ ',' :: serItems y ys
termination_by x xs => sizeOf x + sizeOf xs

/-- Serialization of a nonempty object field list, comma separated. -/
def serFields : (List Char × JsonValue) → List (List Char × JsonValue) → List Char
  | (k, v), [] => '"' :: escString k ++ '"' :: ':' :: serV v
  | (k, v), f :: fs =>
    ('"' :: escString k ++ '"' :: ':' :: serV v) ++ ',' :: serFields f fs
termination_by f fs => sizeOf f + sizeOf fs

end

/-- True when the remainder cannot extend a numeric token: empty or
starting with a non-digit. -/
def headNotDigit : List Char → Bool
  | [] => true
  | c :: _ => !isDigitCh c

/-- Condition under which a serialized value followed by `rest` parses back
exactly: only numeric serializations constrain what may follow. -/
def numOk : JsonValue → List Char → Bool
  | JsonValue.jnum _, rest => headNotDigit rest
  | _, _ => true

/-- True when a triple backtick stands at the start of the list. -/
def fenceAt (cs : List Char) : Bool :=
  leadsWith ['\x60', '\x60', '\x60'] cs

/-- Index of the first triple-backtick occurrence. -/
def findFence : List Char → Option Nat
  | [] => none
  | c :: t => if fenceAt (c :: t) then some 0 else (findFence t).map (· + 1)

/-- Drops trailing whitespace. -/
def stripTrailWs (cs : List Char) : List Char :=
  (cs.reverse.dropWhile isWsChar).reverse

/-- Capture group of the first match of the fenced-block regex (triple
backtick, optional `json` tag, lazily captured interior, closing triple
backtick, with the interior's surrounding whitespace absorbed by the
greedy and lazy whitespace atoms around the capture). -/
def fencedInterior (cs : List Char) : Option (List Char) :=
  match findFence cs with
  | none => none
  | some i =>
    let rest := (cs.drop i).drop 3
    let rest1 := if leadsWith ['j', 's', 'o', 'n'] rest then rest.drop 4 else rest
    let body := skipWs rest1
    match findFence body with
    | none => none
    | some p => some (stripTrailWs (body.take p))

/-- Index of the first occurrence of a character (`String.indexOf`). -/
def firstIdx (c : Char) : List Char → Option Nat
  | [] => none
  | x :: t => if x = c then some 0 else (firstIdx c t).map (· + 1)

/-- Index of the last occurrence of a character (`String.lastIndexOf`). -/
def lastIdx (c : Char) : List Char → Option Nat
  | [] => none
  | x :: t =>
    match lastIdx c t with
    | some i => some (i + 1)
    | none => if x = c then some 0 else none

/-- Model of `String.prototype.substring` (argument order normalized, as in
JavaScript). -/
def jsSubstring (cs : List Char) (a b : Nat) : List Char :=
  (cs.drop (min a b)).take (max a b - min a b)

/-- The third extraction attempt: the substring from the first opening
brace to the last closing brace, inclusive, when both exist. -/
def braceSlice (cs : List Char) : Option (List Char) :=
  match firstIdx '\x7b' cs, lastIdx '\x7d' cs with
  | some i, some j => some (jsSubstring cs i (j + 1))
  | _, _ => none

/-- Model of `tryParseJSON`: direct parse, then the fenced-block interior,
then the brace substring; when every attempt fails it throws an error with
a fixed message. -/
def tryParseJSON (text : String) : Except String JsonValue :=
  match jsonParse text.data with
  | some v => Except.ok v
  | none =>
    match (fencedInterior text.data).bind jsonParse with
    | some v => Except.ok v
    | none =>
      match (braceSlice text.data).bind jsonParse with
      | some v => Except.ok v
      | none => Except.error "Could not parse JSON from response."

/-- Run state mutated by the tail of `runAnalysis` after the retry loop. -/
structure RunState where
  rawResponse : String
  analysisData : Option JsonValue
  error : Option String
  errorDetails : Option String

/-- The tail of `runAnalysis` on a successful inference result: the raw
response is stored first; an empty text throws `Empty response from AI.`;
otherwise the extractor runs and its result is stored. Thrown errors land
in the catch block, which sets the failure classification and the error
message as details. -/
def finishRun (responseText : String) (st : RunState) : RunState :=
  let st1 := { st with rawResponse := responseText }
  if responseText = "" then
    { st1 with error := some "Analysis Failed",
               errorDetails := some "Empty response from AI." }
  else
    match tryParseJSON responseText with
    | Except.ok v => { st1 with analysisData := some v }
    | Except.error msg =>
      { st1 with error := some "Analysis Failed", errorDetails := some msg }

theorem leadsWith_append (pat rest : List Char) :
    leadsWith pat (pat ++ rest) = true := by
  induction pat with
  | nil => rfl
  | cons c t ih => simp [leadsWith, ih]

theorem leadsWith_of_le (pat : List Char) :
    ∀ xs ys : List Char, pat.length ≤ xs.length →
      leadsWith pat (xs ++ ys) = leadsWith pat xs := by
  induction pat with
  | nil => intro xs ys _; rfl
  | cons c t ih =>
    intro xs ys h
    cases xs with
    | nil => simp at h
    | cons x xt =>
      simp only [List.cons_append, leadsWith, List.append_eq]
      rw [ih xt ys (by simpa using h)]

theorem leadsWith_stops (pat : List Char) (c : Char) (hc : c ∉ pat) :
    ∀ A B : List Char, leadsWith pat (A ++ c :: B) = true →
      pat.length ≤ A.length := by
  induction pat with
  | nil => intro A B _; simp
  | cons p pt ih =>
    intro A B h
    cases A with
    | nil =>
      exfalso
      simp only [List.nil_append, leadsWith, Bool.and_eq_true, decide_eq_true_eq] at h
      exact hc (by simp [h.1])
    | cons a At =>
      simp only [List.cons_append, leadsWith, Bool.and_eq_true] at h
      have := ih (by intro hm; exact hc (List.mem_cons_of_mem _ hm)) At B h.2
      simpa using Nat.succ_le_succ this

theorem skipWs_cons_not (c : Char) (t : List Char) (h : isWsChar c = false) :
    skipWs (c :: t) = c :: t := by
  rw [skipWs, List.dropWhile_cons_of_neg]
  simp [h]

theorem skipWs_ws_append (A : List Char) (hA : A.all isWsChar = true) (B : List Char) :
    skipWs (A ++ B) = skipWs B := by
  induction A with
  | nil => rfl
  | cons a t ih =>
    simp only [List.all_cons, Bool.and_eq_true] at hA
    simp only [List.cons_append, skipWs, List.dropWhile_cons_of_pos hA.1]
    exact ih hA.2

theorem all_false_of_mem (A : List Char) (c : Char) (h : c ∈ A)
    (p : Char → Bool) (hc : p c = false) : A.all p = false := by
  rw [List.all_eq_false]
  exact ⟨c, h, by simp [hc]⟩

theorem dropWhile_to_marker (p : Char → Bool) (c : Char) (hc : p c = false) :
    ∀ A B : List Char, ∃ Y, (A ++ c :: B).dropWhile p = Y ++ c :: B := by
  intro A B
  induction A with
  | nil =>
    refine ⟨[], ?_⟩
    simp only [List.nil_append]
    rw [List.dropWhile_cons_of_neg]
    simp [hc]
  | cons a t ih =>
    by_cases hp : p a = true
    · simpa [List.dropWhile_cons_of_pos hp] using ih
    · refine ⟨a :: t, ?_⟩
      rw [List.cons_append, List.dropWhile_cons_of_neg (by simp [hp])]

theorem exists_first_non_ws (A : List Char) (h : A.all isWsChar = false) :
    ∃ W c T, A = W ++ c :: T ∧ W.all isWsChar = true ∧ isWsChar c = false := by
  induction A with
  | nil => simp at h
  | cons a t ih =>
    by_cases ha : isWsChar a = true
    · have ht : t.all isWsChar = false := by
        by_contra hcon
        have : t.all isWsChar = true := by
          cases hh : t.all isWsChar
          · exact absurd hh hcon
          · rfl
        simp [List.all_cons, ha, this] at h
      obtain ⟨W, c, T, h1, h2, h3⟩ := ih ht
      exact ⟨a :: W, c, T, by simp [h1], by simp [ha, h2], h3⟩
    · exact ⟨[], a, t, by simp, by simp, by simpa using ha⟩

theorem digit_toNat (c : Char) (h : isDigitCh c = true) :
    48 ≤ c.toNat ∧ c.toNat ≤ 57 := by
  simp only [isDigitCh, Bool.and_eq_true, decide_eq_true_eq] at h
  obtain ⟨h1, h2⟩ := h
  constructor
  · exact h1
  · exact h2

theorem digit_not_ws (c : Char) (h : isDigitCh c = true) : isWsChar c = false := by
  obtain ⟨h1, h2⟩ := digit_toNat c h
  cases hw : isWsChar c
  · rfl
  · exfalso
    simp only [isWsChar, Bool.or_eq_true, decide_eq_true_eq] at hw
    rcases hw with ((((h' | h') | h') | h') | h') | h' <;> subst h' <;>
      exact absurd h1 (by decide)

theorem digit_ne (c d : Char) (h : isDigitCh c = true) (hd : isDigitCh d = false) :
    c ≠ d := by
  intro hcd
  subst hcd
  simp [h] at hd

theorem digitChar_isDigit (d : Nat) (h : d < 10) :
    isDigitCh (digitChar d) = true := by
  interval_cases d <;> decide

theorem digitChar_val (d : Nat) (h : d < 10) : digitVal (digitChar d) = d := by
  interval_cases d <;> decide

theorem div10_lt_of_lt (n fuel : Nat) (h : n < fuel + 1) (h10 : ¬n < 10) :
    n / 10 < fuel := by
  have : n / 10 < n := Nat.div_lt_self (by omega) (by omega)
  omega

theorem natCharsFuel_head :
    ∀ fuel n : Nat, n < fuel →
      ∃ d t, d < 10 ∧ natCharsFuel fuel n = digitChar d :: t := by
  intro fuel
  induction fuel with
  | zero => intro n h; omega
  | succ f ih =>
    intro n h
    by_cases h10 : n < 10
    · exact ⟨n, [], h10, by simp only [natCharsFuel, if_pos h10]⟩
    · obtain ⟨d, t, hd, ht⟩ := ih (n / 10) (div10_lt_of_lt n f h h10)
      refine ⟨d, t ++ [digitChar (n % 10)], hd, ?_⟩
      simp only [natCharsFuel, if_neg h10, ht]
      simp

theorem natChars_head (n : Nat) :
    ∃ d t, d < 10 ∧ natChars n = digitChar d :: t :=
  natCharsFuel_head (n + 1) n (by omega)

theorem natCharsFuel_digits :
    ∀ fuel n : Nat, n < fuel → ∀ c ∈ natCharsFuel fuel n, isDigitCh c = true := by
  intro fuel
  induction fuel with
  | zero => intro n h; omega
  | succ f ih =>
    intro n h c hc
    by_cases h10 : n < 10
    · simp only [natCharsFuel, if_pos h10, List.mem_singleton] at hc
      subst hc
      exact digitChar_isDigit n h10
    · simp only [natCharsFuel, if_neg h10] at hc
      rcases List.mem_append.mp hc with hm | hm
      · exact ih (n / 10) (div10_lt_of_lt n f h h10) c hm
      · simp only [List.mem_singleton] at hm
        subst hm
        exact digitChar_isDigit _ (Nat.mod_lt _ (by omega))

theorem natChars_all_digits (n : Nat) :
    ∀ c ∈ natChars n, isDigitCh c = true :=
  natCharsFuel_digits (n + 1) n (by omega)

theorem natCharsFuel_foldl :
    ∀ fuel n : Nat, n < fuel → ∀ a : Nat,
      (natCharsFuel fuel n).foldl (fun x c => x * 10 + digitVal c) a
        = a * 10 ^ (natCharsFuel fuel n).length + n := by
  intro fuel
  induction fuel with
  | zero => intro n h; omega
  | succ f ih =>
    intro n h a
    by_cases h10 : n < 10
    · simp only [natCharsFuel, if_pos h10]
      simp [digitChar_val n h10]
    · simp only [natCharsFuel, if_neg h10]
      rw [List.foldl_append]
      rw [ih (n / 10) (div10_lt_of_lt n f h h10) a]
      simp only [List.foldl_cons, List.foldl_nil, List.length_append,
        List.length_singleton]
      rw [digitChar_val _ (Nat.mod_lt _ (by omega))]
      rw [pow_succ]
      have hdm := Nat.div_add_mod n 10
      ring_nf
      omega

theorem natChars_foldl (n : Nat) :
    ∀ a : Nat,
      (natChars n).foldl (fun x c => x * 10 + digitVal c) a
        = a * 10 ^ (natChars n).length + n :=
  natCharsFuel_foldl (n + 1) n (by omega)

theorem parseDigitsAcc_append (ds : List Char) (hds : ∀ c ∈ ds, isDigitCh c = true) :
    ∀ (acc : Nat) (rest : List Char), headNotDigit rest = true →
      parseDigitsAcc acc (ds ++ rest)
        = (ds.foldl (fun x c => x * 10 + digitVal c) acc, rest) := by
  induction ds with
  | nil =>
    intro acc rest hrest
    cases rest with
    | nil => rfl
    | cons c r =>
      simp only [headNotDigit, Bool.not_eq_true'] at hrest
      simp [parseDigitsAcc, hrest]
  | cons d dt ih =>
    intro acc rest hrest
    have hd : isDigitCh d = true := hds d (by simp)
    simp only [List.cons_append, parseDigitsAcc, hd, if_true, List.foldl_cons]
    exact ih (fun c hc => hds c (by simp [hc])) _ rest hrest

theorem parseNat_natChars (n : Nat) (rest : List Char)
    (hrest : headNotDigit rest = true) :
    parseNat (natChars n ++ rest) = some (n, rest) := by
  obtain ⟨d, t, hd, ht⟩ := natChars_head n
  have hdig : ∀ c ∈ natChars n, isDigitCh c = true := natChars_all_digits n
  rw [ht] at hdig ⊢
  simp only [List.cons_append, parseNat, hdig (digitChar d) (by simp), if_true]
  rw [parseDigitsAcc_append t (fun c hc => hdig c (by simp [hc])) _ rest hrest]
  have hfold := natChars_foldl n 0
  rw [ht] at hfold
  simp only [List.foldl_cons, Nat.zero_mul, Nat.zero_add] at hfold
  rw [hfold]

theorem parseStringBody_esc (s : List Char) :
    ∀ rest : List Char,
      parseStringBody (escString s ++ '"' :: rest) = some (s, rest) := by
  induction s with
  | nil =>
    intro rest
    show parseStringBody ([] ++ '"' :: rest) = some ([], rest)
    rw [List.nil_append, parseStringBody.eq_def]
    simp
  | cons c t ih =>
    intro rest
    have hesc : escString (c :: t) = escChar c ++ escString t := by
      simp [escString]
    rw [hesc]
    by_cases h1 : c = '"'
    · subst h1
      simp [escChar, parseStringBody, unescChar, ih rest]
    · by_cases h2 : c = '\\'
      · subst h2
        simp [escChar, parseStringBody, unescChar, ih rest]
      · by_cases h3 : c = '\n'
        · subst h3
          simp [escChar, parseStringBody, unescChar, ih rest]
        · by_cases h4 : c = '\t'
          · subst h4
            simp [escChar, parseStringBody, unescChar, ih rest]
          · by_cases h5 : c = '\r'
            · subst h5
              simp [escChar, parseStringBody, unescChar, ih rest]
            · rw [escChar, if_neg h1, if_neg h2, if_neg h3, if_neg h4, if_neg h5]
              rw [List.singleton_append, List.cons_append]
              rw [parseStringBody.eq_def]
              simp only [if_neg h1, if_neg h2]
              rw [ih rest]
              rfl

theorem serV_null : serV JsonValue.null = ['n', 'u', 'l', 'l'] := by simp [serV]

theorem serV_true : serV (JsonValue.jbool true) = ['t', 'r', 'u', 'e'] := by
  simp [serV]

theorem serV_false : serV (JsonValue.jbool false) = ['f', 'a', 'l', 's', 'e'] := by
  simp [serV]

theorem serV_num (k : Int) : serV (JsonValue.jnum k) = intChars k := by simp [serV]

theorem serV_str (s : List Char) :
    serV (JsonValue.jstr s) = '"' :: escString s ++ ['"'] := by simp [serV]

theorem serV_arr_nil : serV (JsonValue.jarr []) = ['[', ']'] := by simp [serV]

theorem serV_arr_cons (x : JsonValue) (xs : List JsonValue) :
    serV (JsonValue.jarr (x :: xs)) = '[' :: serItems x xs ++ [']'] := by
  simp [serV]

theorem serV_obj_nil : serV (JsonValue.jobj []) = ['\x7b', '\x7d'] := by
  simp [serV]

theorem serV_obj_cons (f : List Char × JsonValue)
    (fs : List (List Char × JsonValue)) :
    serV (JsonValue.jobj (f :: fs)) = '\x7b' :: serFields f fs ++ ['\x7d'] := by
  simp [serV]

theorem serItems_nil (x : JsonValue) : serItems x [] = serV x := by
  simp [serItems]

theorem serItems_cons (x y : JsonValue) (ys : List JsonValue) :
    serItems x (y :: ys) = serV x ++ ',' :: serItems y ys := by
  simp [serItems]

theorem serFields_one (k : List Char) (v : JsonValue) :
    serFields (k, v) [] = '"' :: escString k ++ '"' :: ':' :: serV v := by
  simp [serFields]

theorem serFields_cons (k : List Char) (v : JsonValue)
    (f : List Char × JsonValue) (fs : List (List Char × JsonValue)) :
    serFields (k, v) (f :: fs)
      = ('"' :: escString k ++ '"' :: ':' :: serV v) ++ ',' :: serFields f fs := by
  simp [serFields]

theorem serV_shape (D : JsonValue) :
    ∃ c t, serV D = c :: t ∧ isWsChar c = false ∧ c ≠ ']' ∧ c ≠ ',' := by
  cases D with
  | null => exact ⟨'n', _, serV_null, by decide, by decide, by decide⟩
  | jbool b =>
    cases b with
    | true => exact ⟨'t', _, serV_true, by decide, by decide, by decide⟩
    | false => exact ⟨'f', _, serV_false, by decide, by decide, by decide⟩
  | jnum k =>
    cases k with
    | ofNat m =>
      obtain ⟨d, t, hd, ht⟩ := natChars_head m
      have hdig := digitChar_isDigit d hd
      refine ⟨digitChar d, t, ?_, digit_not_ws _ hdig, ?_, ?_⟩
      · rw [serV_num]
        exact ht
      · exact digit_ne _ _ hdig (by decide)
      · exact digit_ne _ _ hdig (by decide)
    | negSucc m =>
      refine ⟨'-', natChars (m + 1), ?_, by decide, by decide, by decide⟩
      rw [serV_num]
      rfl
  | jstr s => exact ⟨'"', _, serV_str s, by decide, by decide, by decide⟩
  | jarr xs =>
    cases xs with
    | nil => exact ⟨'[', _, serV_arr_nil, by decide, by decide, by decide⟩
    | cons x xt =>
      exact ⟨'[', _, serV_arr_cons x xt, by decide, by decide, by decide⟩
  | jobj fs =>
    cases fs with
    | nil => exact ⟨'\x7b', _, serV_obj_nil, by decide, by decide, by decide⟩
    | cons f ft =>
      exact ⟨'\x7b', _, serV_obj_cons f ft, by decide, by decide, by decide⟩

theorem serItems_shape (x : JsonValue) (xs : List JsonValue) :
    ∃ c t, serItems x xs = c :: t ∧ isWsChar c = false ∧ c ≠ ']' := by
  obtain ⟨c, t, hser, hws, hne, _⟩ := serV_shape x
  cases xs with
  | nil => exact ⟨c, t, by rw [serItems_nil, hser], hws, hne⟩
  | cons y ys =>
    refine ⟨c, t ++ ',' :: serItems y ys, ?_, hws, hne⟩
    rw [serItems_cons, hser]
    simp

theorem serFields_shape (f : List Char × JsonValue)
    (fs : List (List Char × JsonValue)) :
    ∃ t, serFields f fs = '"' :: t := by
  obtain ⟨k, v⟩ := f
  cases fs with
  | nil => exact ⟨_, serFields_one k v⟩
  | cons g gs =>
    refine ⟨escString k ++ '"' :: ':' :: serV v ++ ',' :: serFields g gs, ?_⟩
    rw [serFields_cons]
    simp

theorem serV_len_pos (D : JsonValue) : 1 ≤ (serV D).length := by
  obtain ⟨c, t, hser, _, _, _⟩ := serV_shape D
  rw [hser]
  simp

theorem headNotDigit_cons (c : Char) (r : List Char) (h : isDigitCh c = false) :
    headNotDigit (c :: r) = true := by
  simp [headNotDigit, h]

theorem numOk_of_head (D : JsonValue) (rest : List Char)
    (h : headNotDigit rest = true) : numOk D rest = true := by
  cases D <;> simp [numOk, h]

theorem parseValue_obj_nil (g : Nat) (rest : List Char) :
    parseValue (g + 1) ('\x7b' :: '\x7d' :: rest)
      = some (JsonValue.jobj [], rest) := by
  simp only [parseValue]
  rw [skipWs_cons_not _ _ (by decide)]
  simp [skipWs_cons_not '\x7d' rest (by decide)]

theorem parseValue_obj_go (g : Nat) (c2 : Char) (r2 : List Char)
    (hws : isWsChar c2 = false) (hne : c2 ≠ '\x7d') :
    parseValue (g + 1) ('\x7b' :: c2 :: r2)
      = (parseFields g (c2 :: r2)).map (fun p => (JsonValue.jobj p.1, p.2)) := by
  simp only [parseValue]
  rw [skipWs_cons_not _ _ (by decide)]
  simp [skipWs_cons_not c2 r2 hws, hne]

theorem parseValue_arr_nil (g : Nat) (rest : List Char) :
    parseValue (g + 1) ('[' :: ']' :: rest) = some (JsonValue.jarr [], rest) := by
  simp only [parseValue]
  rw [skipWs_cons_not _ _ (by decide)]
  simp [skipWs_cons_not ']' rest (by decide)]

theorem parseValue_arr_go (g : Nat) (c2 : Char) (r2 : List Char)
    (hws : isWsChar c2 = false) (hne : c2 ≠ ']') :
    parseValue (g + 1) ('[' :: c2 :: r2)
      = (parseItems g (c2 :: r2)).map (fun p => (JsonValue.jarr p.1, p.2)) := by
  simp only [parseValue]
  rw [skipWs_cons_not _ _ (by decide)]
  simp [skipWs_cons_not c2 r2 hws, hne]

theorem parseValue_quote (g : Nat) (r : List Char) :
    parseValue (g + 1) ('"' :: r)
      = (parseStringBody r).map (fun p => (JsonValue.jstr p.1, p.2)) := by
  simp only [parseValue]
  rw [skipWs_cons_not _ _ (by decide)]
  simp

theorem parseValue_null_lit (g : Nat) (rest : List Char) :
    parseValue (g + 1) ('n' :: 'u' :: 'l' :: 'l' :: rest)
      = some (JsonValue.null, rest) := by
  simp only [parseValue]
  rw [skipWs_cons_not _ _ (by decide)]
  simp [leadsWith]

theorem parseValue_true_lit (g : Nat) (rest : List Char) :
    parseValue (g + 1) ('t' :: 'r' :: 'u' :: 'e' :: rest)
      = some (JsonValue.jbool true, rest) := by
  simp only [parseValue]
  rw [skipWs_cons_not _ _ (by decide)]
  simp [leadsWith]

theorem parseValue_false_lit (g : Nat) (rest : List Char) :
    parseValue (g + 1) ('f' :: 'a' :: 'l' :: 's' :: 'e' :: rest)
      = some (JsonValue.jbool false, rest) := by
  simp only [parseValue]
  rw [skipWs_cons_not _ _ (by decide)]
  simp [leadsWith]

theorem parseValue_digit (g : Nat) (c : Char) (r : List Char)
    (h : isDigitCh c = true) :
    parseValue (g + 1) (c :: r)
      = (parseNat (c :: r)).map (fun p => (JsonValue.jnum (p.1 : Int), p.2)) := by
  simp only [parseValue]
  rw [skipWs_cons_not _ _ (digit_not_ws c h)]
  simp [digit_ne c '\x7b' h (by decide), digit_ne c '[' h (by decide),
    digit_ne c '"' h (by decide), digit_ne c 't' h (by decide),
    digit_ne c 'f' h (by decide), digit_ne c 'n' h (by decide),
    digit_ne c '-' h (by decide), h]

theorem parseValue_minus (g : Nat) (r : List Char) :
    parseValue (g + 1) ('-' :: r)
      = (parseNat r).map (fun p => (JsonValue.jnum (-(p.1 : Int)), p.2)) := by
  simp only [parseValue]
  rw [skipWs_cons_not _ _ (by decide)]
  simp

theorem parse_ser_main (n : Nat) :
    (∀ D : JsonValue, 2 * (serV D).length ≤ n → ∀ fuel : Nat,
      (serV D).length < fuel → ∀ rest : List Char, numOk D rest = true →
      parseValue fuel (serV D ++ rest) = some (D, rest)) ∧
    (∀ (x : JsonValue) (xs : List JsonValue),
      2 * (serItems x xs).length + 1 ≤ n → ∀ fuel : Nat,
      (serItems x xs).length + 1 < fuel → ∀ rest : List Char,
      parseItems fuel (serItems x xs ++ ']' :: rest) = some (x :: xs, rest)) ∧
    (∀ (f : List Char × JsonValue) (fs : List (List Char × JsonValue)),
      2 * (serFields f fs).length + 1 ≤ n → ∀ fuel : Nat,
      (serFields f fs).length + 1 < fuel → ∀ rest : List Char,
      parseFields fuel (serFields f fs ++ '\x7d' :: rest) = some (f :: fs, rest)) := by
  induction n using Nat.strong_induction_on with
  | _ n ih =>
    refine ⟨?_, ?_, ?_⟩
    · intro D hsz fuel hfuel rest hnum
      obtain ⟨g, rfl⟩ : ∃ g, fuel = g + 1 := ⟨fuel - 1, by omega⟩
      cases D with
      | null =>
        rw [serV_null]
        simp only [List.cons_append, List.nil_append]
        exact parseValue_null_lit g rest
      | jbool b =>
        cases b with
        | false =>
          rw [serV_false]
          simp only [List.cons_append, List.nil_append]
          exact parseValue_false_lit g rest
        | true =>
          rw [serV_true]
          simp only [List.cons_append, List.nil_append]
          exact parseValue_true_lit g rest
      | jnum k =>
        have hnum' : headNotDigit rest = true := by simpa [numOk] using hnum
        cases k with
        | ofNat m =>
          rw [serV_num]
          obtain ⟨d, t, hd, ht⟩ := natChars_head m
          have hdig := digitChar_isDigit d hd
          have hpn : parseNat (natChars m ++ rest) = some (m, rest) :=
            parseNat_natChars m rest hnum'
          rw [show intChars (Int.ofNat m) = natChars m from rfl, ht]
          rw [ht] at hpn
          simp only [List.cons_append] at hpn ⊢
          rw [parseValue_digit g _ _ hdig, hpn]
          rfl
        | negSucc m =>
          rw [serV_num]
          rw [show intChars (Int.negSucc m) = '-' :: natChars (m + 1) from rfl]
          simp only [List.cons_append]
          rw [parseValue_minus g _, parseNat_natChars (m + 1) rest hnum']
          show some (JsonValue.jnum (-((m + 1 : Nat) : Int)), rest)
            = some (JsonValue.jnum (Int.negSucc m), rest)
          have hneg : (-((m + 1 : Nat) : Int)) = Int.negSucc m := by
            rw [Int.negSucc_eq]
            push_cast
            ring
          rw [hneg]
      | jstr s =>
        rw [serV_str]
        simp only [List.cons_append, List.append_assoc, List.singleton_append]
        rw [parseValue_quote, parseStringBody_esc]
        rfl
      | jarr xs =>
        cases xs with
        | nil =>
          rw [serV_arr_nil]
          simp only [List.cons_append, List.nil_append]
          exact parseValue_arr_nil g rest
        | cons x xt =>
          have hlen : (serV (JsonValue.jarr (x :: xt))).length
              = (serItems x xt).length + 2 := by
            rw [serV_arr_cons]
            simp
          rw [serV_arr_cons]
          obtain ⟨c2, r2, hser, hws, hne⟩ := serItems_shape x xt
          simp only [List.cons_append, List.append_assoc, List.singleton_append,
            List.nil_append]
          have heq : serItems x xt ++ ']' :: rest = c2 :: (r2 ++ ']' :: rest) := by
            rw [hser]
            simp
          rw [heq, parseValue_arr_go g c2 _ hws hne, ← heq]
          rw [(ih (2 * (serItems x xt).length + 1) (by omega)).2.1 x xt le_rfl g
            (by omega) rest]
          rfl
      | jobj fs =>
        cases fs with
        | nil =>
          rw [serV_obj_nil]
          simp only [List.cons_append, List.nil_append]
          exact parseValue_obj_nil g rest
        | cons f ft =>
          have hlen : (serV (JsonValue.jobj (f :: ft))).length
              = (serFields f ft).length + 2 := by
            rw [serV_obj_cons]
            simp
          rw [serV_obj_cons]
          obtain ⟨t2, hser⟩ := serFields_shape f ft
          simp only [List.cons_append, List.append_assoc, List.singleton_append,
            List.nil_append]
          have heq : serFields f ft ++ '\x7d' :: rest = '"' :: (t2 ++ '\x7d' :: rest) := by
            rw [hser]
            simp
          rw [heq, parseValue_obj_go g '"' _ (by decide) (by decide), ← heq]
          rw [(ih (2 * (serFields f ft).length + 1) (by omega)).2.2 f ft le_rfl g
            (by omega) rest]
          rfl
    · intro x xs hsz fuel hfuel rest
      obtain ⟨g, rfl⟩ : ∃ g, fuel = g + 1 := ⟨fuel - 1, by omega⟩
      cases xs with
      | nil =>
        rw [serItems_nil] at hsz hfuel ⊢
        have hA := (ih (2 * (serV x).length) (by omega)).1 x le_rfl g (by omega)
          (']' :: rest)
          (numOk_of_head x _ (headNotDigit_cons ']' rest (by decide)))
        simp only [parseItems, hA]
        simp [skipWs_cons_not ']' rest (by decide)]
      | cons y ys =>
        have hlen : (serItems x (y :: ys)).length
            = (serV x).length + 1 + (serItems y ys).length := by
          rw [serItems_cons]
          simp
          omega
        rw [serItems_cons]
        simp only [List.append_assoc, List.cons_append]
        have hA := (ih (2 * (serV x).length) (by omega)).1 x le_rfl g (by omega)
          (',' :: (serItems y ys ++ ']' :: rest))
          (numOk_of_head x _ (headNotDigit_cons ',' _ (by decide)))
        have hB := (ih (2 * (serItems y ys).length + 1) (by omega)).2.1 y ys
          le_rfl g (by omega) rest
        simp only [parseItems, hA]
        simp [skipWs_cons_not ',' _ (by decide), hB]
    · intro f fs hsz fuel hfuel rest
      obtain ⟨g, rfl⟩ : ∃ g, fuel = g + 1 := ⟨fuel - 1, by omega⟩
      obtain ⟨k, v⟩ := f
      cases fs with
      | nil =>
        have hlen : (serFields (k, v) []).length
            = (escString k).length + 3 + (serV v).length := by
          rw [serFields_one]
          simp
          omega
        rw [serFields_one]
        simp only [List.cons_append, List.append_assoc]
        have hA := (ih (2 * (serV v).length) (by omega)).1 v le_rfl g (by omega)
          ('\x7d' :: rest)
          (numOk_of_head v _ (headNotDigit_cons '\x7d' rest (by decide)))
        simp only [parseFields]
        rw [skipWs_cons_not '"' _ (by decide)]
        simp only [List.cons_append]
        rw [parseStringBody_esc]
        simp [skipWs_cons_not ':' _ (by decide), hA,
          skipWs_cons_not '\x7d' rest (by decide)]
      | cons f2 fs2 =>
        have hlen : (serFields (k, v) (f2 :: fs2)).length
            = (escString k).length + 3 + (serV v).length + 1
              + (serFields f2 fs2).length := by
          rw [serFields_cons]
          simp
          omega
        rw [serFields_cons]
        simp only [List.cons_append, List.append_assoc]
        have hA := (ih (2 * (serV v).length) (by omega)).1 v le_rfl g (by omega)
          (',' :: (serFields f2 fs2 ++ '\x7d' :: rest))
          (numOk_of_head v _ (headNotDigit_cons ',' _ (by decide)))
        have hC := (ih (2 * (serFields f2 fs2).length + 1) (by omega)).2.2 f2 fs2
          le_rfl g (by omega) rest
        simp only [parseFields]
        rw [skipWs_cons_not '"' _ (by decide)]
        simp only [List.cons_append]
        rw [parseStringBody_esc]
        simp [skipWs_cons_not ':' _ (by decide), hA,
          skipWs_cons_not ',' _ (by decide), hC]

theorem parseValue_serV (D : JsonValue) (fuel : Nat)
    (hfuel : (serV D).length < fuel) (rest : List Char)
    (hnum : numOk D rest = true) :
    parseValue fuel (serV D ++ rest) = some (D, rest) :=
  (parse_ser_main (2 * (serV D).length)).1 D le_rfl fuel hfuel rest hnum

theorem ws_not_digit (c : Char) (h : isWsChar c = true) : isDigitCh c = false := by
  cases hd : isDigitCh c
  · rfl
  · rw [digit_not_ws c hd] at h
    exact absurd h (by simp)

theorem headNotDigit_of_all_ws (S : List Char) (h : S.all isWsChar = true) :
    headNotDigit S = true := by
  cases S with
  | nil => rfl
  | cons c t =>
    simp only [List.all_cons, Bool.and_eq_true] at h
    exact headNotDigit_cons c t (ws_not_digit c h.1)

theorem jsonParse_serV_ws (D : JsonValue) (S : List Char)
    (hS : S.all isWsChar = true) :
    jsonParse (serV D ++ S) = some D := by
  rw [jsonParse]
  have hfuel : (serV D).length < 2 * (serV D ++ S).length + 2 := by
    simp only [List.length_append]
    omega
  rw [parseValue_serV D _ hfuel S (numOk_of_head D S (headNotDigit_of_all_ws S hS))]
  simp [hS]

theorem jsonParse_serV (D : JsonValue) : jsonParse (serV D) = some D := by
  have := jsonParse_serV_ws D [] rfl
  rwa [List.append_nil] at this

theorem parseValue_t_if (g : Nat) (r : List Char) :
    parseValue (g + 1) ('t' :: r)
      = if leadsWith ['r', 'u', 'e'] r then some (JsonValue.jbool true, r.drop 3)
        else none := by
  simp only [parseValue]
  rw [skipWs_cons_not _ _ (by decide)]
  simp

theorem parseValue_f_if (g : Nat) (r : List Char) :
    parseValue (g + 1) ('f' :: r)
      = if leadsWith ['a', 'l', 's', 'e'] r then
          some (JsonValue.jbool false, r.drop 4)
        else none := by
  simp only [parseValue]
  rw [skipWs_cons_not _ _ (by decide)]
  simp

theorem parseValue_n_if (g : Nat) (r : List Char) :
    parseValue (g + 1) ('n' :: r)
      = if leadsWith ['u', 'l', 'l'] r then some (JsonValue.null, r.drop 3)
        else none := by
  simp only [parseValue]
  rw [skipWs_cons_not _ _ (by decide)]
  simp

theorem parseValue_junk (g : Nat) (c : Char) (r : List Char)
    (hws : isWsChar c = false) (h1 : c ≠ '\x7b') (h2 : c ≠ '[') (h3 : c ≠ '"')
    (h4 : c ≠ 't') (h5 : c ≠ 'f') (h6 : c ≠ 'n') (h7 : c ≠ '-')
    (h8 : isDigitCh c = false) :
    parseValue (g + 1) (c :: r) = none := by
  simp only [parseValue]
  rw [skipWs_cons_not _ _ hws]
  simp [h1, h2, h3, h4, h5, h6, h7, h8]

theorem parseValue_wsLead (fuel : Nat) (W cs : List Char)
    (hW : W.all isWsChar = true) :
    parseValue fuel (W ++ cs) = parseValue fuel cs := by
  cases fuel with
  | zero => rfl
  | succ g =>
    simp only [parseValue]
    rw [skipWs_ws_append W hW cs]

theorem parseDigitsAcc_snd (acc : Nat) (X : List Char) :
    (parseDigitsAcc acc X).2 = X.dropWhile isDigitCh := by
  induction X generalizing acc with
  | nil => rfl
  | cons c t ih =>
    by_cases h : isDigitCh c = true
    · rw [parseDigitsAcc, if_pos h, List.dropWhile_cons_of_pos h]
      exact ih _
    · have h' : isDigitCh c = false := by
        cases hh : isDigitCh c
        · rfl
        · exact absurd hh h
      rw [parseDigitsAcc, if_neg (by simp [h']), List.dropWhile_cons_of_neg (by simp [h'])]

def proseChar (c : Char) : Bool :=
  c ≠ '\x7b' && c ≠ '\x7d' && c ≠ '\x60' && c ≠ '[' && c ≠ '"'

def proseOk (cs : List Char) : Bool := cs.all proseChar

def isObjDoc : JsonValue → Bool
  | JsonValue.jobj _ => true
  | _ => false

def fenceWrap (tagged : Bool) (s : List Char) : List Char :=
  '\x60' :: '\x60' :: '\x60' ::
    ((if tagged then ['j', 's', 'o', 'n'] else []) ++
      '\n' :: s ++ '\n' :: '\x60' :: '\x60' :: '\x60' :: [])

theorem proseOk_mem (P : List Char) (hP : proseOk P = true) (c : Char)
    (hc : c ∈ P) :
    c ≠ '\x7b' ∧ c ≠ '\x7d' ∧ c ≠ '\x60' ∧ c ≠ '[' ∧ c ≠ '"' := by
  rw [proseOk, List.all_eq_true] at hP
  have := hP c hc
  simp only [proseChar, Bool.and_eq_true, decide_eq_true_eq] at this
  tauto

theorem numOk_obj (D : JsonValue) (hobj : isObjDoc D = true) (rest : List Char) :
    numOk D rest = true := by
  cases D <;> simp_all [numOk, isObjDoc]

theorem serV_obj_split (D : JsonValue) (hobj : isObjDoc D = true) :
    ∃ Y, serV D = '\x7b' :: Y ++ ['\x7d'] := by
  cases D with
  | jobj fs =>
    cases fs with
    | nil => exact ⟨[], by rw [serV_obj_nil]; rfl⟩
    | cons f ft => exact ⟨serFields f ft, by rw [serV_obj_cons]⟩
  | null => simp [isObjDoc] at hobj
  | jbool b => simp [isObjDoc] at hobj
  | jnum k => simp [isObjDoc] at hobj
  | jstr s => simp [isObjDoc] at hobj
  | jarr xs => simp [isObjDoc] at hobj

theorem all_ws_false_marker (A B : List Char) :
    (A ++ '\x7b' :: B).all isWsChar = false :=
  all_false_of_mem _ '\x7b' (by simp) isWsChar (by decide)

theorem bool_not_true (b : Bool) (h : ¬b = true) : b = false := by
  cases b
  · rfl
  · exact absurd rfl h

theorem jsonParse_of_some_ws (cs : List Char) (v : JsonValue) (rest : List Char)
    (h : parseValue (2 * cs.length + 2) cs = some (v, rest))
    (hrest : rest.all isWsChar = true) :
    jsonParse cs = some v := by
  rw [jsonParse, h]
  show (if rest.all isWsChar = true then some v else none) = some v
  rw [hrest]
  simp

theorem jsonParse_of_some_junk (cs : List Char) (v : JsonValue) (rest : List Char)
    (h : parseValue (2 * cs.length + 2) cs = some (v, rest))
    (hrest : rest.all isWsChar = false) :
    jsonParse cs = none := by
  rw [jsonParse, h]
  show (if rest.all isWsChar = true then some v else none) = none
  rw [hrest]
  simp

theorem jsonParse_of_none (cs : List Char)
    (h : parseValue (2 * cs.length + 2) cs = none) :
    jsonParse cs = none := by
  rw [jsonParse, h]

theorem parseNat_cons_digit (c : Char) (r : List Char) (h : isDigitCh c = true) :
    parseNat (c :: r) = some (parseDigitsAcc (digitVal c) r) := by
  simp [parseNat, h]

theorem parseNat_cons_junk (c : Char) (r : List Char) (h : isDigitCh c = false) :
    parseNat (c :: r) = none := by
  simp [parseNat, h]

theorem parseValue_junkNum (g : Nat) (A B : List Char) :
    ∀ R, parseValue (g + 1) ('-' :: (A ++ '\x7b' :: B)) = R →
      R = none ∨ ∃ v Yd, R = some (v, Yd ++ '\x7b' :: B) := by
  intro R hR
  cases A with
  | nil =>
    rw [List.nil_append, parseValue_minus,
      parseNat_cons_junk '\x7b' B (by decide)] at hR
    left
    exact hR.symm
  | cons p0 A2 =>
    by_cases hp0 : isDigitCh p0 = true
    · rw [List.cons_append, parseValue_minus,
        parseNat_cons_digit p0 _ hp0] at hR
      right
      obtain ⟨Yd, hYd⟩ :=
        dropWhile_to_marker isDigitCh '\x7b' (by decide) A2 B
      refine ⟨JsonValue.jnum (-((parseDigitsAcc (digitVal p0) (A2 ++ '\x7b' :: B)).1 : Int)),
        Yd, ?_⟩
      rw [← hR]
      simp only [Option.map_some']
      rw [show (parseDigitsAcc (digitVal p0) (A2 ++ '\x7b' :: B)).2
          = Yd ++ '\x7b' :: B by rw [parseDigitsAcc_snd, hYd]]
    · rw [List.cons_append, parseValue_minus,
        parseNat_cons_junk p0 _ (bool_not_true _ hp0)] at hR
      left
      exact hR.symm

theorem jsonParse_with_prose (D : JsonValue) (hobj : isObjDoc D = true)
    (P S : List Char) (hP : proseOk P = true) (hS : proseOk S = true) :
    jsonParse (P ++ (serV D ++ S)) = some D
      ∨ jsonParse (P ++ (serV D ++ S)) = none := by
  by_cases hPws : P.all isWsChar = true
  · have hfuel : (serV D).length < 2 * (P ++ (serV D ++ S)).length + 2 := by
      simp only [List.length_append]
      omega
    have hfull : parseValue (2 * (P ++ (serV D ++ S)).length + 2)
        (P ++ (serV D ++ S)) = some (D, S) := by
      rw [parseValue_wsLead _ P _ hPws]
      exact parseValue_serV D _ hfuel S (numOk_obj D hobj S)
    by_cases hSws : S.all isWsChar = true
    · exact Or.inl (jsonParse_of_some_ws _ D S hfull hSws)
    · exact Or.inr (jsonParse_of_some_junk _ D S hfull (bool_not_true _ hSws))
  · right
    obtain ⟨W, c, P2, hPdecomp, hWws, hcws⟩ :=
      exists_first_non_ws P (bool_not_true _ hPws)
    obtain ⟨Y, hY⟩ := serV_obj_split D hobj
    obtain ⟨hc1, hc2, hc3, hc4, hc5⟩ := proseOk_mem _ hP c (by rw [hPdecomp]; simp)
    have hM : serV D ++ S = '\x7b' :: (Y ++ ['\x7d'] ++ S) := by
      rw [hY]
      simp
    obtain ⟨g, hg⟩ : ∃ g, 2 * (P ++ (serV D ++ S)).length + 2 = g + 1 :=
      ⟨2 * (P ++ (serV D ++ S)).length + 1, rfl⟩
    have hstep : parseValue (2 * (P ++ (serV D ++ S)).length + 2) (P ++ (serV D ++ S))
        = parseValue (g + 1) (c :: (P2 ++ '\x7b' :: (Y ++ ['\x7d'] ++ S))) := by
      rw [hg, hPdecomp, hM]
      have hre : (W ++ c :: P2) ++ '\x7b' :: (Y ++ ['\x7d'] ++ S)
          = W ++ (c :: (P2 ++ '\x7b' :: (Y ++ ['\x7d'] ++ S))) := by simp
      rw [hre, parseValue_wsLead _ W _ hWws]
    set M := Y ++ ['\x7d'] ++ S with hMdef
    by_cases hdig : isDigitCh c = true
    · obtain ⟨Yd, hYd⟩ := dropWhile_to_marker isDigitCh '\x7b' (by decide) P2 M
      refine jsonParse_of_some_junk _
        (JsonValue.jnum ((parseDigitsAcc (digitVal c) (P2 ++ '\x7b' :: M)).1 : Int))
        (Yd ++ '\x7b' :: M) ?_ (all_ws_false_marker Yd M)
      rw [hstep, parseValue_digit _ c _ hdig, parseNat_cons_digit c _ hdig]
      simp only [Option.map_some']
      rw [show (parseDigitsAcc (digitVal c) (P2 ++ '\x7b' :: M)).2
          = Yd ++ '\x7b' :: M by rw [parseDigitsAcc_snd, hYd]]
    · by_cases hct : c = 't'
      · subst hct
        by_cases hlw : leadsWith ['r', 'u', 'e'] (P2 ++ '\x7b' :: M) = true
        · have hle : (['r', 'u', 'e'] : List Char).length ≤ P2.length :=
            leadsWith_stops _ '\x7b' (by decide) P2 _ hlw
          refine jsonParse_of_some_junk _ (JsonValue.jbool true)
            (P2.drop 3 ++ '\x7b' :: M) ?_ (all_ws_false_marker _ M)
          rw [hstep, parseValue_t_if, if_pos hlw,
            List.drop_append_of_le_length (by simpa using hle)]
        · refine jsonParse_of_none _ ?_
          rw [hstep, parseValue_t_if, if_neg hlw]
      · by_cases hcf : c = 'f'
        · subst hcf
          by_cases hlw : leadsWith ['a', 'l', 's', 'e'] (P2 ++ '\x7b' :: M) = true
          · have hle : (['a', 'l', 's', 'e'] : List Char).length ≤ P2.length :=
              leadsWith_stops _ '\x7b' (by decide) P2 _ hlw
            refine jsonParse_of_some_junk _ (JsonValue.jbool false)
              (P2.drop 4 ++ '\x7b' :: M) ?_ (all_ws_false_marker _ M)
            rw [hstep, parseValue_f_if, if_pos hlw,
              List.drop_append_of_le_length (by simpa using hle)]
          · refine jsonParse_of_none _ ?_
            rw [hstep, parseValue_f_if, if_neg hlw]
        · by_cases hcn : c = 'n'
          · subst hcn
            by_cases hlw : leadsWith ['u', 'l', 'l'] (P2 ++ '\x7b' :: M) = true
            · have hle : (['u', 'l', 'l'] : List Char).length ≤ P2.length :=
                leadsWith_stops _ '\x7b' (by decide) P2 _ hlw
              refine jsonParse_of_some_junk _ JsonValue.null
                (P2.drop 3 ++ '\x7b' :: M) ?_ (all_ws_false_marker _ M)
              rw [hstep, parseValue_n_if, if_pos hlw,
                List.drop_append_of_le_length (by simpa using hle)]
            · refine jsonParse_of_none _ ?_
              rw [hstep, parseValue_n_if, if_neg hlw]
          · by_cases hcm : c = '-'
            · subst hcm
              have hjunk := parseValue_junkNum g P2 M
                (parseValue (g + 1) ('-' :: (P2 ++ '\x7b' :: M))) rfl
              rcases hjunk with hnone | ⟨v, Yd, hsome⟩
              · refine jsonParse_of_none _ ?_
                rw [hstep, hnone]
              · refine jsonParse_of_some_junk _ v (Yd ++ '\x7b' :: M) ?_
                  (all_ws_false_marker Yd M)
                rw [hstep, hsome]
            · refine jsonParse_of_none _ ?_
              rw [hstep]
              exact parseValue_junk g c _ hcws hc1 hc4 hc5
                hct hcf hcn hcm (bool_not_true _ hdig)

theorem fenceAt_cons_ne (c : Char) (X : List Char) (h : c ≠ '\x60') :
    fenceAt (c :: X) = false := by
  simp [fenceAt, leadsWith, Ne.symm h]

theorem findFence_no_bt (S : List Char) (hS : ∀ c ∈ S, c ≠ '\x60') :
    findFence S = none := by
  induction S with
  | nil => rfl
  | cons s t ih =>
    rw [findFence, if_neg (by simp [fenceAt_cons_ne s t (hS s (by simp))])]
    rw [ih (fun c hc => hS c (by simp [hc]))]
    rfl

theorem findFence_cons_inv (c : Char) (t : List Char)
    (h : findFence (c :: t) = none) :
    fenceAt (c :: t) = false ∧ findFence t = none := by
  rw [findFence] at h
  by_cases hf : fenceAt (c :: t) = true
  · rw [if_pos hf] at h
    exact absurd h (by simp)
  · refine ⟨bool_not_true _ hf, ?_⟩
    rw [if_neg hf] at h
    exact Option.map_eq_none'.mp h

theorem fenceAt_extend_false (a : Char) (X S : List Char)
    (hX : fenceAt (a :: X) = false) (hS : ∀ c ∈ S, c ≠ '\x60') :
    fenceAt (a :: (X ++ S)) = false := by
  cases X with
  | nil =>
    cases S with
    | nil => simpa using hX
    | cons s0 S2 =>
      have hs0 : s0 ≠ '\x60' := hS s0 (by simp)
      by_cases ha : a = '\x60'
      · simp [fenceAt, leadsWith, Ne.symm hs0]
      · simp [fenceAt, leadsWith, Ne.symm ha]
  | cons b X2 =>
    cases X2 with
    | nil =>
      cases S with
      | nil => simpa using hX
      | cons s0 S2 =>
        have hs0 : s0 ≠ '\x60' := hS s0 (by simp)
        simp [fenceAt, leadsWith, Ne.symm hs0]
    | cons d X3 =>
      simp only [fenceAt, leadsWith] at hX ⊢
      simpa using hX

theorem fenceAt_marker_false (a : Char) (X : List Char) (rest : List Char)
    (hX : fenceAt (a :: X) = false) :
    fenceAt (a :: (X ++ '\n' :: '\x60' :: '\x60' :: '\x60' :: rest)) = false := by
  cases X with
  | nil => simp [fenceAt, leadsWith]
  | cons b X2 =>
    cases X2 with
    | nil => simp [fenceAt, leadsWith]
    | cons d X3 =>
      simp only [fenceAt, leadsWith] at hX ⊢
      simpa using hX

theorem findFence_append_no_bt (M : List Char) :
    ∀ S : List Char, findFence M = none → (∀ c ∈ S, c ≠ '\x60') →
      findFence (M ++ S) = none := by
  induction M with
  | nil =>
    intro S _ hS
    exact findFence_no_bt S hS
  | cons m M2 ih =>
    intro S hM hS
    obtain ⟨hfa, hM2⟩ := findFence_cons_inv m M2 hM
    rw [List.cons_append, findFence,
      if_neg (by rw [fenceAt_extend_false m M2 S hfa hS]; simp),
      ih S hM2 hS]
    rfl

theorem findFence_prefix_no_bt (P : List Char) (M : List Char)
    (hP : ∀ c ∈ P, c ≠ '\x60') (hM : findFence M = none) :
    findFence (P ++ M) = none := by
  induction P with
  | nil => simpa using hM
  | cons p P2 ih =>
    rw [List.cons_append, findFence,
      if_neg (by simp [fenceAt_cons_ne _ _ (hP p (by simp))]),
      ih (fun c hc => hP c (by simp [hc]))]
    rfl

theorem findFence_marker (A : List Char) (rest : List Char)
    (hA : findFence A = none) :
    findFence (A ++ '\n' :: '\x60' :: '\x60' :: '\x60' :: rest)
      = some (A.length + 1) := by
  induction A with
  | nil =>
    rw [List.nil_append, findFence,
      if_neg (by simp [fenceAt_cons_ne '\n' _ (by decide)])]
    rw [findFence, if_pos (by simp [fenceAt, leadsWith])]
    rfl
  | cons a A2 ih =>
    obtain ⟨hfa, hA2⟩ := findFence_cons_inv a A2 hA
    rw [List.cons_append, findFence,
      if_neg (by rw [fenceAt_marker_false a A2 rest hfa]; simp), ih hA2]
    rfl

theorem skipWs_cons_ws (c : Char) (X : List Char) (h : isWsChar c = true) :
    skipWs (c :: X) = skipWs X := by
  simp [skipWs, List.dropWhile_cons_of_pos h]

theorem stripTrailWs_app (Y : List Char) (c : Char) (h : isWsChar c = false) :
    stripTrailWs ((Y ++ [c]) ++ ['\n']) = Y ++ [c] := by
  rw [stripTrailWs]
  rw [List.reverse_append, List.reverse_append]
  simp only [List.reverse_cons, List.reverse_nil, List.nil_append,
    List.singleton_append, List.cons_append]
  rw [List.dropWhile_cons_of_pos (by decide)]
  rw [List.dropWhile_cons_of_neg (by simp [h])]
  simp

theorem fencedInterior_wrap (tagged : Bool) (M : List Char)
    (hM : findFence M = none)
    (hhead : ∃ c t, M = c :: t ∧ isWsChar c = false)
    (hlast : ∃ Y c, M = Y ++ [c] ∧ isWsChar c = false) :
    fencedInterior (fenceWrap tagged M) = some M := by
  obtain ⟨hc, ht, hMhead, hws⟩ := hhead
  obtain ⟨Y, cl, hMlast, hwl⟩ := hlast
  have h0 : findFence (fenceWrap tagged M) = some 0 := by
    rw [fenceWrap, findFence, if_pos (by simp [fenceAt, leadsWith])]
  have hdrop : ((fenceWrap tagged M).drop 0).drop 3
      = (if tagged then ['j', 's', 'o', 'n'] else []) ++
        ('\n' :: M ++ '\n' :: '\x60' :: '\x60' :: '\x60' :: []) := by
    rw [fenceWrap]
    simp [List.drop]
  have hrest1 :
      (if leadsWith ['j', 's', 'o', 'n']
          ((if tagged then ['j', 's', 'o', 'n'] else []) ++
            ('\n' :: M ++ '\n' :: '\x60' :: '\x60' :: '\x60' :: [])) then
        ((if tagged then ['j', 's', 'o', 'n'] else []) ++
          ('\n' :: M ++ '\n' :: '\x60' :: '\x60' :: '\x60' :: [])).drop 4
      else
        ((if tagged then ['j', 's', 'o', 'n'] else []) ++
          ('\n' :: M ++ '\n' :: '\x60' :: '\x60' :: '\x60' :: [])))
      = '\n' :: M ++ '\n' :: '\x60' :: '\x60' :: '\x60' :: [] := by
    cases tagged with
    | true =>
      simp only [if_true]
      rw [if_pos (leadsWith_append ['j', 's', 'o', 'n'] _)]
      rw [show (4 : Nat) = (['j', 's', 'o', 'n'] : List Char).length from rfl,
        List.drop_left]
    | false =>
      simp only [Bool.false_eq_true, if_false, List.nil_append]
      rw [if_neg (by simp [leadsWith])]
  have hbody : skipWs ('\n' :: M ++ '\n' :: '\x60' :: '\x60' :: '\x60' :: [])
      = M ++ '\n' :: '\x60' :: '\x60' :: '\x60' :: [] := by
    rw [List.cons_append, skipWs_cons_ws _ _ (by decide)]
    conv_lhs => rw [hMhead, List.cons_append, skipWs_cons_not _ _ hws]
    rw [hMhead, List.cons_append]
  have hff : findFence (M ++ '\n' :: '\x60' :: '\x60' :: '\x60' :: [])
      = some (M.length + 1) := findFence_marker M [] hM
  have htake : (M ++ '\n' :: '\x60' :: '\x60' :: '\x60' :: []).take (M.length + 1)
      = M ++ ['\n'] := by
    rw [List.take_append_eq_append_take]
    rw [List.take_of_length_le (by omega)]
    simp
  have hstrip : stripTrailWs (M ++ ['\n']) = M := by
    rw [hMlast]
    exact stripTrailWs_app Y cl hwl
  rw [fencedInterior.eq_def, h0]
  simp only [hdrop, hrest1, hbody, hff, htake, hstrip]



theorem firstIdx_marker (c : Char) (A : List Char) (hA : c ∉ A) (B : List Char) :
    firstIdx c (A ++ c :: B) = some A.length := by
  induction A with
  | nil =>
    rw [List.nil_append, firstIdx, if_pos rfl]
    rfl
  | cons a A2 ih =>
    have ha : a ≠ c := by
      intro h
      exact hA (by simp [h])
    rw [List.cons_append, firstIdx, if_neg ha,
      ih (fun h => hA (by simp [h]))]
    rfl

theorem lastIdx_none (c : Char) (B : List Char) (hB : c ∉ B) :
    lastIdx c B = none := by
  induction B with
  | nil => rfl
  | cons b t ih =>
    have hb : b ≠ c := by
      intro h
      exact hB (by simp [h])
    rw [lastIdx, ih (fun h => hB (by simp [h])), if_neg hb]

theorem lastIdx_marker (c : Char) (A B : List Char) (hB : c ∉ B) :
    lastIdx c (A ++ c :: B) = some A.length := by
  induction A with
  | nil =>
    rw [List.nil_append, lastIdx, lastIdx_none c B hB, if_pos rfl]
    rfl
  | cons a A2 ih =>
    rw [List.cons_append, lastIdx, ih]
    rfl

theorem braceSlice_extract (P M S Y : List Char)
    (hM : M = '\x7b' :: Y ++ ['\x7d'])
    (hP : ∀ ch ∈ P, ch ≠ '\x7b') (hS : ∀ ch ∈ S, ch ≠ '\x7d') :
    braceSlice (P ++ (M ++ S)) = some M := by
  have hPn : '\x7b' ∉ P := by
    intro h
    exact hP _ h rfl
  have hSn : '\x7d' ∉ S := by
    intro h
    exact hS _ h rfl
  have h1 : firstIdx '\x7b' (P ++ (M ++ S)) = some P.length := by
    have he : P ++ (M ++ S) = P ++ '\x7b' :: ((Y ++ ['\x7d']) ++ S) := by
      rw [hM]
      simp
    rw [he]
    exact firstIdx_marker '\x7b' P hPn _
  have h2 : lastIdx '\x7d' (P ++ (M ++ S)) = some (P.length + Y.length + 1) := by
    have he : P ++ (M ++ S) = (P ++ ('\x7b' :: Y)) ++ '\x7d' :: S := by
      rw [hM]
      simp
    rw [he, lastIdx_marker '\x7d' _ S hSn]
    simp only [List.length_append, List.length_cons]
    norm_num
    omega
  rw [braceSlice, h1, h2]
  show some (jsSubstring (P ++ (M ++ S)) P.length (P.length + Y.length + 1 + 1))
    = some M
  have hMlen : M.length = Y.length + 2 := by
    rw [hM]
    simp
  rw [jsSubstring]
  rw [show min P.length (P.length + Y.length + 1 + 1) = P.length by omega]
  rw [show max P.length (P.length + Y.length + 1 + 1) = P.length + (Y.length + 2) by omega]
  rw [List.drop_left]
  rw [show P.length + (Y.length + 2) - P.length = M.length by omega]
  rw [List.take_append_eq_append_take, List.take_of_length_le (by omega)]
  simp

theorem jsonParse_backtick (r : List Char) : jsonParse ('\x60' :: r) = none := by
  refine jsonParse_of_none _ ?_
  show parseValue (2 * ('\x60' :: r).length + 1 + 1) ('\x60' :: r) = none
  exact parseValue_junk _ '\x60' r (by decide) (by decide) (by decide) (by decide)
    (by decide) (by decide) (by decide) (by decide) (by decide)

theorem tryParseJSON_s1 (t : String) (v : JsonValue)
    (h : jsonParse t.data = some v) : tryParseJSON t = Except.ok v := by
  simp only [tryParseJSON, h]

theorem tryParseJSON_s2 (t : String) (v : JsonValue)
    (h1 : jsonParse t.data = none)
    (h2 : (fencedInterior t.data).bind jsonParse = some v) :
    tryParseJSON t = Except.ok v := by
  simp only [tryParseJSON, h1, h2]

theorem tryParseJSON_s3 (t : String) (v : JsonValue)
    (h1 : jsonParse t.data = none)
    (h2 : (fencedInterior t.data).bind jsonParse = none)
    (h3 : (braceSlice t.data).bind jsonParse = some v) :
    tryParseJSON t = Except.ok v := by
  simp only [tryParseJSON, h1, h2, h3]

theorem tryParseJSON_fail (t : String)
    (h1 : jsonParse t.data = none)
    (h2 : (fencedInterior t.data).bind jsonParse = none)
    (h3 : (braceSlice t.data).bind jsonParse = none) :
    tryParseJSON t = Except.error "Could not parse JSON from response." := by
  simp only [tryParseJSON, h1, h2, h3]

theorem serV_head_shape (D : JsonValue) :
    ∃ c t, serV D = c :: t ∧ isWsChar c = false := by
  obtain ⟨c, t, h1, h2, _, _⟩ := serV_shape D
  exact ⟨c, t, h1, h2⟩

theorem serV_last_shape (D : JsonValue) (hD : isObjDoc D = true) :
    ∃ Y c, serV D = Y ++ [c] ∧ isWsChar c = false := by
  obtain ⟨Y, hY⟩ := serV_obj_split D hD
  exact ⟨'\x7b' :: Y, '\x7d', hY, by decide⟩

/-- C8 as amended: the extractor round-trip holds for the serialization of
every object document `D` taken directly; and, provided the serialization
contains no triple-backtick run, also when wrapped in a fenced code block
(tagged `json` or untagged) and when surrounded by prose prefix and suffix
text that contain no brace, bracket, backtick or double-quote characters.
The restrictions are forced by the counterexample: a `\x7b` in the prose or
a fenced run inside a string value break the round-trip. -/
theorem c8_roundtrip_amended (D : JsonValue) (P S : List Char)
    (hD : isObjDoc D = true)
    (hfree : findFence (serV D) = none)
    (hP : proseOk P = true) (hS : proseOk S = true) :
    tryParseJSON (String.mk (serV D)) = Except.ok D ∧
    tryParseJSON (String.mk (fenceWrap true (serV D))) = Except.ok D ∧
    tryParseJSON (String.mk (fenceWrap false (serV D))) = Except.ok D ∧
    tryParseJSON (String.mk (P ++ (serV D ++ S))) = Except.ok D := by
  have hdirect : tryParseJSON (String.mk (serV D)) = Except.ok D :=
    tryParseJSON_s1 _ D (jsonParse_serV D)
  have hfenced : ∀ tagged : Bool,
      tryParseJSON (String.mk (fenceWrap tagged (serV D))) = Except.ok D := by
    intro tagged
    refine tryParseJSON_s2 _ D ?_ ?_
    · show jsonParse (fenceWrap tagged (serV D)) = none
      rw [fenceWrap]
      exact jsonParse_backtick _
    · show (fencedInterior (fenceWrap tagged (serV D))).bind jsonParse = some D
      rw [fencedInterior_wrap tagged (serV D) hfree (serV_head_shape D)
        (serV_last_shape D hD)]
      show jsonParse (serV D) = some D
      exact jsonParse_serV D
  refine ⟨hdirect, hfenced true, hfenced false, ?_⟩
  rcases jsonParse_with_prose D hD P S hP hS with hsome | hnone
  · exact tryParseJSON_s1 _ D hsome
  · have hPbt : ∀ c ∈ P, c ≠ '\x60' := fun c hc => (proseOk_mem P hP c hc).2.2.1
    have hSbt : ∀ c ∈ S, c ≠ '\x60' := fun c hc => (proseOk_mem S hS c hc).2.2.1
    have hff : findFence (P ++ (serV D ++ S)) = none :=
      findFence_prefix_no_bt P _ hPbt
        (findFence_append_no_bt (serV D) S hfree hSbt)
    obtain ⟨Y, hY⟩ := serV_obj_split D hD
    refine tryParseJSON_s3 _ D hnone ?_ ?_
    · show (fencedInterior (P ++ (serV D ++ S))).bind jsonParse = none
      rw [fencedInterior, hff]
      rfl
    · show (braceSlice (P ++ (serV D ++ S))).bind jsonParse = some D
      rw [braceSlice_extract P (serV D) S Y hY
        (fun c hc => (proseOk_mem P hP c hc).1)
        (fun c hc => (proseOk_mem S hS c hc).2.1)]
      show jsonParse (serV D) = some D
      exact jsonParse_serV D

def ex8good : JsonValue := JsonValue.jobj [(['a'], JsonValue.null)]

def ex8fence : JsonValue :=
  JsonValue.jobj [(['a'],
    JsonValue.jstr ['\x60', '\x60', '\x60', ' ', '5', ' ', '\x60', '\x60', '\x60'])]

/-- Counterexample to C8 as stated: with the prose prefix `\x7b`, all three
strategies fail on the wrapped serialization of an object document, so
`tryParseJSON` throws instead of returning the document; and with the prose
prefix `x ` around a document whose string value contains fenced runs, the
fenced-block strategy extracts the interior `5` and returns the wrong
document `jnum 5`. Round-tripping under arbitrary prose therefore fails. -/
theorem c8_counterexample :
    tryParseJSON (String.mk ('\x7b' :: serV ex8good))
      = Except.error "Could not parse JSON from response." ∧
    tryParseJSON (String.mk ('x' :: ' ' :: serV ex8fence))
      = Except.ok (JsonValue.jnum 5) ∧
    JsonValue.jnum 5 ≠ ex8fence := by
  have hser : serV ex8good
      = ['\x7b', '"', 'a', '"', ':', 'n', 'u', 'l', 'l', '\x7d'] := by
    simp only [ex8good, serV, serFields]
    decide
  have hser2 : serV ex8fence
      = ['\x7b', '"', 'a', '"', ':', '"', '\x60', '\x60', '\x60', ' ', '5', ' ',
          '\x60', '\x60', '\x60', '"', '\x7d'] := by
    simp only [ex8fence, serV, serFields]
    decide
  refine ⟨?_, ?_, ?_⟩
  · rw [hser]
    rfl
  · rw [hser2]
    rfl
  · intro h
    rw [ex8fence] at h
    exact JsonValue.noConfusion h

def ex8w : JsonValue := JsonValue.jobj [(['o', 'k'], JsonValue.jbool true)]

theorem c8_roundtrip_amended_witness :
    tryParseJSON (String.mk (serV ex8w)) = Except.ok ex8w ∧
    tryParseJSON (String.mk (fenceWrap true (serV ex8w))) = Except.ok ex8w ∧
    tryParseJSON (String.mk (fenceWrap false (serV ex8w))) = Except.ok ex8w ∧
    tryParseJSON (String.mk ("Coach says: ".data ++ (serV ex8w ++ " end".data)))
      = Except.ok ex8w :=
  c8_roundtrip_amended ex8w "Coach says: ".data " end".data rfl
    (by simp only [ex8w, serV, serFields]; decide) (by decide) (by decide)

/-- Counterexample to C9 as stated: the error thrown when all three parsing
strategies fail is the constant `Could not parse JSON from response.` for
two different raw texts, so the raised error itself does not carry the
original raw text. -/
theorem c9_counterexample :
    tryParseJSON "transient model chatter"
      = Except.error "Could not parse JSON from response." ∧
    tryParseJSON "other chatter, no payload"
      = Except.error "Could not parse JSON from response." :=
  ⟨rfl, rfl⟩

/-- C9 as amended: when all three parsing strategies fail on a raw text,
`tryParseJSON` throws an error with the fixed message `Could not parse JSON
from response.`; the raw text remains available for diagnostics because the
orchestrator stores it in `rawResponse` before parsing, and no partial or
empty result is stored (`analysisData` is unchanged); the run is marked
`Analysis Failed` with the parse message as detail. -/
theorem c9_all_fail (t : String) (st : RunState)
    (h1 : jsonParse t.data = none)
    (h2 : (fencedInterior t.data).bind jsonParse = none)
    (h3 : (braceSlice t.data).bind jsonParse = none)
    (hne : t ≠ "") :
    tryParseJSON t = Except.error "Could not parse JSON from response." ∧
    (finishRun t st).rawResponse = t ∧
    (finishRun t st).analysisData = st.analysisData ∧
    (finishRun t st).error = some "Analysis Failed" ∧
    (finishRun t st).errorDetails
      = some "Could not parse JSON from response." := by
  have htp := tryParseJSON_fail t h1 h2 h3
  refine ⟨htp, ?_, ?_, ?_, ?_⟩ <;> simp [finishRun, hne, htp]

theorem c9_all_fail_witness :
    tryParseJSON "no payload present"
      = Except.error "Could not parse JSON from response." ∧
    (finishRun "no payload present" ⟨"", none, none, none⟩).rawResponse
      = "no payload present" ∧
    (finishRun "no payload present" ⟨"", none, none, none⟩).analysisData = none ∧
    (finishRun "no payload present" ⟨"", none, none, none⟩).error
      = some "Analysis Failed" ∧
    (finishRun "no payload present" ⟨"", none, none, none⟩).errorDetails
      = some "Could not parse JSON from response." :=
  c9_all_fail "no payload present" ⟨"", none, none, none⟩ rfl rfl rfl
    (by decide)

/-- C10: when the inference call succeeds but yields an empty (or absent,
coerced to empty) response text, the run does not proceed to extraction and
does not succeed with an empty result: the raw response is stored, no
analysis data is set, and the orchestrator maps the thrown
`Empty response from AI.` to the failed state. -/
theorem c10_empty_response (st : RunState) (h : st.analysisData = none) :
    (finishRun "" st).rawResponse = "" ∧
    (finishRun "" st).analysisData = none ∧
    (finishRun "" st).error = some "Analysis Failed" ∧
    (finishRun "" st).errorDetails = some "Empty response from AI." := by
  refine ⟨?_, ?_, ?_, ?_⟩ <;> simp [finishRun, h]

theorem c10_empty_response_witness :
    (finishRun "" ⟨"", none, none, none⟩).rawResponse = "" ∧
    (finishRun "" ⟨"", none, none, none⟩).analysisData = none ∧
    (finishRun "" ⟨"", none, none, none⟩).error = some "Analysis Failed" ∧
    (finishRun "" ⟨"", none, none, none⟩).errorDetails
      = some "Empty response from AI." :=
  c10_empty_response ⟨"", none, none, none⟩ rfl

end Pitchside
